import Mathlib

/-!
Verification of the json-to-md-tree repository (two Python files, app.py and
app2.py) against its natural-language specification.

The development shallowly embeds the two pipelines:
* app.py : `build_tree` — the Structured-Tree Renderer over parsed JSON values;
* app2.py : `extract_const_block`, `find_property_keys`, `build_tree_from_keys`
  and `tree_to_md_lines` — the heuristic source-literal pipeline.

Python strings become Lean `String`, Python lists become `List`, Python ints
become `Nat`/`Int` (with `Int.fdiv` for Python floor division), fallible code
returns `Except`/`Option`.  Mutable dict trees built through live references on
a stack (app2.py, `build_tree_from_keys`) are embedded as an arena of nodes
addressed by index, with the stack holding `(level, nodeIndex)` pairs — a
faithful rendering of the reference semantics, since the Python code never
detaches a container once created.
-/

/-- Python string repetition `s * n` (for `n` a natural number; Python yields
the empty string for non-positive multipliers, matched here by `Nat`
subtraction saturating at zero at call sites). -/
def repStr (s : String) : Nat → String
  | 0 => ""
  | n + 1 => s ++ repStr s n

/-- Parsed JSON values as consumed by app.py `build_tree`: dicts (insertion
ordered), lists, and scalars.  All non-container values (strings, numbers,
booleans, null) are treated identically by the renderer, so a single `scalar`
constructor carrying an ignored payload models them. -/
inductive JValue where
  | obj : List (String × JValue) → JValue
  | arr : List JValue → JValue
  | scalar : String → JValue

mutual

/-- app.py lines 6-40, `build_tree(data, indent=0)`: recursively converts a
JSON structure into tree-like text lines. -/
def build_tree : JValue → Nat → List String
  | .obj entries, indent => buildObjLines entries indent
  | .arr items, indent => buildArrLines items indent 0
  | .scalar _, _ => []

/-- The dict branch of `build_tree` (app.py lines 11-26): the loop over
`data.items()`; `rest.isEmpty` is the `i == len(data) - 1` last-entry test. -/
def buildObjLines : List (String × JValue) → Nat → List String
  | [], _ => []
  | (key, val) :: rest, indent =>
    let connector := if rest.isEmpty then "└── " else "├── "
    let keyLine := if indent = 0 then key
                   else repStr "│   " (indent - 1) ++ connector ++ key
    let valLines := match val with
      | .obj es => build_tree (.obj es) (indent + 1)
      | .arr is => build_tree (.arr is) (indent + 1)
      | .scalar _ => [repStr "│   " indent ++ "└── value"]
    keyLine :: (valLines ++ buildObjLines rest indent)

/-- The list branch of `build_tree` (app.py lines 28-38): the loop over
`enumerate(data)` with `idx` the running 0-based index. -/
def buildArrLines : List JValue → Nat → Nat → List String
  | [], _, _ => []
  | item :: rest, indent, idx =>
    let connector := if rest.isEmpty then "└── " else "├── "
    let line := repStr "│   " (indent - 1) ++ connector ++ "[" ++ toString idx ++ "]"
    let itemLines := match item with
      | .obj es => build_tree (.obj es) (indent + 1)
      | .arr is => build_tree (.arr is) (indent + 1)
      | .scalar _ => [repStr "│   " indent ++ "└── value"]
    line :: (itemLines ++ buildArrLines rest indent (idx + 1))

end

mutual

/-- Total count of dict keys and list indices across all levels of a value
(a `scalar` contributes nothing).  Each such key or index produces exactly one
non-leaf-marker line in `build_tree`. -/
def keyCount : JValue → Nat
  | .obj entries => keyCountObj entries
  | .arr items => keyCountArr items
  | .scalar _ => 0

/-- Keys+indices count for a dict body. -/
def keyCountObj : List (String × JValue) → Nat
  | [] => 0
  | (_, val) :: rest => 1 + keyCount val + keyCountObj rest

/-- Keys+indices count for a list body. -/
def keyCountArr : List JValue → Nat
  | [] => 0
  | item :: rest => 1 + keyCount item + keyCountArr rest

end

mutual

/-- Number of leaf-marker lines (lines reading like a repeated filler followed
by the fixed text "value") that `build_tree` emits for a value sitting in entry
position: one for a scalar entry, and the recursive total for a container. -/
def markerCount : JValue → Nat
  | .obj entries => markerCountObj entries
  | .arr items => markerCountArr items
  | .scalar _ => 1

/-- Leaf-marker count for a dict body. -/
def markerCountObj : List (String × JValue) → Nat
  | [] => 0
  | (_, val) :: rest => markerCount val + markerCountObj rest

/-- Leaf-marker count for a list body. -/
def markerCountArr : List JValue → Nat
  | [] => 0
  | item :: rest => markerCount item + markerCountArr rest

end

/-- `JValue.isContainer v` holds when `v` is a dict or a list — the two cases
`build_tree` renders (a bare scalar root produces no lines). -/
def JValue.isContainer : JValue → Prop
  | .obj _ => True
  | .arr _ => True
  | .scalar _ => False

instance : DecidablePred JValue.isContainer := fun v => by
  cases v <;> simp [JValue.isContainer] <;> infer_instance

/-! ## The recovered named hierarchy and its renderer (app2.py) -/

/-- The nested dict tree recovered by app2.py: every node is an insertion
ordered mapping from child name to subtree (Python nested `dict`s, where every
value is again a dict). -/
inductive NTree where
  | node : List (String × NTree) → NTree

/-- The child list of a recovered tree node (`subtree.items()`). -/
def NTree.children : NTree → List (String × NTree)
  | .node cs => cs

mutual

/-- app2.py lines 123-144, `tree_to_md_lines(name, subtree, prefix="",
is_last=True)`: converts a nested dict tree into markdown-style ASCII tree
lines.  The loop over the children is `treeChildrenLines`. -/
def tree_to_md_lines : String → NTree → String → Bool → List String
  | name, .node cs, pre, isLast =>
    let connector := if isLast then "└── " else "├── "
    let line := if pre = "" then name else pre ++ connector ++ name
    let childPre := pre ++ (if isLast then "    " else "│   ")
    line :: treeChildrenLines cs childPre

/-- The `for idx, (child_name, child_subtree) in enumerate(children)` loop of
`tree_to_md_lines`; `rest.isEmpty` is the `idx == len(children) - 1` test. -/
def treeChildrenLines : List (String × NTree) → String → List String
  | [], _ => []
  | (childName, childSubtree) :: rest, childPre =>
    tree_to_md_lines childName childSubtree childPre rest.isEmpty
      ++ treeChildrenLines rest childPre

end

mutual

/-- Modelled from the specification text of the Named-Tree Renderer (spec
section 4.5), to be compared with `tree_to_md_lines`: emit the bare name when
the prefix is empty and otherwise prefix ++ connector ++ name, extend the
children's prefix by four blanks after a last sibling and by a bar filler
otherwise, and recurse over the children in stored order marking only the
final child as last. -/
def namedRenderSpec : String → NTree → String → Bool → List String
  | name, .node cs, pre, isLast =>
    (if pre = "" then name
     else pre ++ (if isLast then "└── " else "├── ") ++ name)
      :: namedRenderSpecChildren cs
          (pre ++ (if isLast then "    " else "│   ")) 0 cs.length

/-- Children traversal of `namedRenderSpec`, carrying the 0-based position
`idx` and the sibling count `total`, so that the last-sibling flag is the
positional test `idx = total - 1` exactly as the specification words it. -/
def namedRenderSpecChildren (cs : List (String × NTree)) (childPre : String)
    (idx total : Nat) : List String :=
  match cs with
  | [] => []
  | (n, t) :: rest =>
    namedRenderSpec n t childPre (decide (idx = total - 1))
      ++ namedRenderSpecChildren rest childPre (idx + 1) total

end

/-! ## Line classification regexes of app2.py, as character-list matchers

The Python code uses `re`; the patterns involved are deterministic (no
backtracking is ever needed because every repeated character class is disjoint
from what follows it, for declaration names that do not themselves begin or
end with whitespace), so maximal-munch scanners model them exactly. -/

/-- Python regex class `\s` (ASCII range, as used by the input lines). -/
def isSpaceChar (c : Char) : Bool :=
  c = ' ' || c = '\t' || c = '\n' || c = '\r' || c = '\x0b' || c = '\x0c'

/-- Python regex class `\w` (ASCII range), deciding `\b` word boundaries. -/
def isWordChar (c : Char) : Bool := c.isAlphanum || c = '_'

/-- The character class `[A-Za-z0-9_$]` of the unquoted-key regex. -/
def isIdentChar (c : Char) : Bool := c.isAlphanum || c = '_' || c = '$'

/-- The character class of the quoted-key regex: a double quote (34) or a
single quote (39). -/
def isQuoteChar (c : Char) : Bool := c.toNat = 34 || c.toNat = 39

/-- Anchored literal match: consume exactly the characters of `lit`, returning
the remainder of the input on success. -/
def expectLit : List Char → List Char → Option (List Char)
  | [], cs => some cs
  | _ :: _, [] => none
  | l :: ls, c :: cs => if c = l then expectLit ls cs else none

/-- Regex `\s+`: at least one whitespace character, consumed greedily. -/
def dropWsPlus : List Char → Option (List Char)
  | [] => none
  | c :: rest =>
    if isSpaceChar c then some (rest.dropWhile isSpaceChar) else none

/-- Anchored test for `const\s+<name>\s*=` (the suffix of app2.py's
`const_pattern` after the word boundary), at the current position. -/
def constDeclAt (name : String) (cs : List Char) : Bool :=
  match expectLit "const".toList cs with
  | none => false
  | some r1 =>
    match dropWsPlus r1 with
    | none => false
    | some r2 =>
      match expectLit name.toList r2 with
      | none => false
      | some r3 =>
        match r3.dropWhile isSpaceChar with
        | '=' :: _ => true
        | _ => false

/-- Anchored test for `export\s+default\b` (the suffix of the app2.py
termination regex after the leading word boundary). -/
def exportDefaultAt (cs : List Char) : Bool :=
  match expectLit "export".toList cs with
  | none => false
  | some r1 =>
    match dropWsPlus r1 with
    | none => false
    | some r2 =>
      match expectLit "default".toList r2 with
      | none => false
      | some r3 =>
        match r3 with
        | [] => true
        | c :: _ => ¬ isWordChar c

/-- `re.search` with a leading `\b`: try the anchored test at every position
whose preceding character is not a word character (`prevWord` tracks the
character just before the current position; both patterns searched for start
with a word character, so the boundary reduces to this test). -/
def searchBnd (test : List Char → Bool) : Bool → List Char → Bool
  | _, [] => false
  | prevWord, c :: rest =>
    (!prevWord && test (c :: rest)) || searchBnd test (isWordChar c) rest

/-- app2.py line 16/20: does `const_pattern.search(line)` succeed? -/
def constDeclMatch (name : String) (line : String) : Bool :=
  searchBnd (constDeclAt name) false line.toList

/-- app2.py line 25, second disjunct: `re.search(r"\bexport\s+default\b",
line)`. -/
def hasExportDefault (line : String) : Bool :=
  searchBnd exportDefaultAt false line.toList

/-- app2.py line 25, first disjunct: `re.match(r"\s*\x7d;\s*$", line)` — a line
holding only whitespace around the closing token. -/
def isClosingLine (line : String) : Bool :=
  match line.toList.dropWhile isSpaceChar with
  | '\x7d' :: ';' :: rest => rest.all isSpaceChar
  | _ => false

/-- The full termination test of the scanning loop (app2.py line 25). -/
def isTerminatorLine (line : String) : Bool :=
  isClosingLine line || hasExportDefault line

/-- The two failure modes of `extract_const_block` (app2.py lines 30-34):
`ValueError` with a not-found message, and `ValueError` with an empty-body
message. -/
inductive ExtractError where
  | declarationNotFound
  | emptyBody
deriving DecidableEq

/-- The collection phase of the `extract_const_block` loop once `in_const` is
set: gather lines in order, stopping (exclusively) at the first terminator. -/
def collectBody : List String → List String
  | [] => []
  | l :: rest => if isTerminatorLine l then [] else l :: collectBody rest

/-- The search phase of the `extract_const_block` loop while `in_const` is
false: skip lines until one matches the declaration pattern, then collect the
body from the following line; `none` when no line ever matches. -/
def scanForStart (name : String) : List String → Option (List String)
  | [] => none
  | l :: rest =>
    if constDeclMatch name l then some (collectBody rest)
    else scanForStart name rest

/-- app2.py lines 7-36, `extract_const_block(source, const_name)`, taking the
already split lines of the source text (`source.splitlines()`). -/
def extract_const_block (lines : List String) (const_name : String) :
    Except ExtractError (List String) :=
  match scanForStart const_name lines with
  | none => .error .declarationNotFound
  | some [] => .error .emptyBody
  | some (b :: bs) => .ok (b :: bs)

/-! ## Key recovery (app2.py `find_property_keys`) -/

/-- Python `line.strip()` on a character list. -/
def stripChars (cs : List Char) : List Char :=
  ((cs.dropWhile isSpaceChar).reverse.dropWhile isSpaceChar).reverse

/-- app2.py line 61: the stripped line starts a comment (`//`, `/*`, or a `*`
continuation line). -/
def isCommentStart : List Char → Bool
  | '/' :: '/' :: _ => true
  | '/' :: '*' :: _ => true
  | '*' :: _ => true
  | _ => false

/-- Anchored match of `ident_key_re`, app2.py line 53:
leading whitespace, an identifier of `[A-Za-z0-9_$]+`, optional whitespace,
then a colon; returns (indent, key) on success. -/
def matchIdentKey (cs : List Char) : Option (Nat × String) :=
  let ws := cs.takeWhile isSpaceChar
  let rest1 := cs.dropWhile isSpaceChar
  let ident := rest1.takeWhile isIdentChar
  let rest2 := (rest1.dropWhile isIdentChar).dropWhile isSpaceChar
  if ident.isEmpty then none
  else
    match rest2 with
    | ':' :: _ => some (ws.length, String.mk ident)
    | _ => none

/-- Anchored match of `quoted_key_re`, app2.py line 54: leading whitespace, a
quote character, one or more non-quote characters, a quote character (the two
quotes need not match, exactly as in the Python pattern), optional whitespace,
then a colon. -/
def matchQuotedKey (cs : List Char) : Option (Nat × String) :=
  let ws := cs.takeWhile isSpaceChar
  match cs.dropWhile isSpaceChar with
  | [] => none
  | q :: rest1 =>
    if isQuoteChar q then
      let content := rest1.takeWhile (fun c => ¬ isQuoteChar c)
      match rest1.dropWhile (fun c => ¬ isQuoteChar c) with
      | [] => none
      | _ :: rest2 =>
        if content.isEmpty then none
        else
          match rest2.dropWhile isSpaceChar with
          | ':' :: _ => some (ws.length, String.mk content)
          | _ => none
    else none

/-- The per-line classification of `find_property_keys` (app2.py lines 56-73):
skip blank and comment lines, try the identifier shape then the quoted shape,
and silently discard lines that match neither. -/
def keyRecordOfLine (line : String) : Option (Nat × String) :=
  let cs := line.toList
  let stripped := stripChars cs
  if stripped.isEmpty then none
  else if isCommentStart stripped then none
  else
    match matchIdentKey cs with
    | some r => some r
    | none => matchQuotedKey cs

/-- app2.py lines 42-78, `find_property_keys(block_lines)`: the ordered list
of (indent, key) records; `none` models the `ValueError` raised when no
property key is found. -/
def find_property_keys (blockLines : List String) :
    Option (List (Nat × String)) :=
  let records := blockLines.filterMap keyRecordOfLine
  if records.isEmpty then none else some records

/-! ## Hierarchy builder (app2.py `build_tree_from_keys`)

The Python code builds nested `dict`s mutated through live references held on
a stack.  The embedding uses an arena: `nodes` is the store of all containers
created so far, each a list of (child name, child index) pairs in insertion
order, and the stack holds `(level, node index)` pairs with the TOP AT THE
HEAD (Python's `stack[-1]` is the head here).  Node 0 is the root container
bound to the declaration name.  Since the Python code never removes a child or
re-binds a container, the arena is a faithful rendering of the reference
semantics. -/

/-- app2.py line 90: `base_indent = min(indent for indent, _ in records)`.
Only meaningful for non-empty `records` (Python raises `ValueError` on an
empty `min`; `build_tree_from_keys` below returns `none` in that case before
ever using this value). -/
def base_indent (records : List (Nat × String)) : Nat :=
  match records with
  | [] => 0
  | r :: rs => rs.foldl (fun m p => min m p.1) r.1

/-- app2.py lines 93-95: the sorted set of strictly positive values of
`indent - base_indent` across the records (`sorted` of a Python set dedups and
sorts ascending; on deduplicated integers every sort agrees, so a structural
insertion sort models it). -/
def posDiffs (records : List (Nat × String)) : List Int :=
  ((records.map (fun r => (r.1 : Int) - (base_indent records : Int))).filter
      (fun d => 0 < d)).dedup.insertionSort (· ≤ ·)

/-- app2.py line 96: `indent_step = diffs[0] if diffs else 2`. -/
def indent_step (records : List (Nat × String)) : Int :=
  match posDiffs records with
  | [] => 2
  | d :: _ => d

/-- app2.py lines 104-106: the logical level of a record —
`1 + (indent - base_indent) // indent_step`, clamped below by 1.  `Int.fdiv`
is Python's floor division. -/
def level_for (base : Nat) (step : Int) (indent : Nat) : Int :=
  let level := 1 + ((indent : Int) - (base : Int)).fdiv step
  if level < 1 then 1 else level

/-- The in-progress state of `build_tree_from_keys`: the arena of containers
and the stack of `(level, node index)` pairs, top at the head. -/
structure BuildState where
  nodes : List (List (String × Nat))
  stack : List (Int × Nat)
deriving DecidableEq

/-- app2.py lines 109-110: `while stack and stack[-1][0] >= level:
stack.pop()` (the stack's top is the head of the list). -/
def popGE (level : Int) : List (Int × Nat) → List (Int × Nat)
  | [] => []
  | (l, n) :: rest => if level ≤ l then popGE level rest else (l, n) :: rest

/-- The body of the `for indent, key in records` loop (app2.py lines 102-118):
pop to the correct parent level, look the key up among the parent's children
(`if key not in parent: parent[key] = \x7b\x7d`), create a fresh container when
absent, and push the child as a potential parent.  `none` models the
`IndexError` Python would raise at `stack[-1]` on an empty stack. -/
def insertRecord (base : Nat) (step : Int) (st : BuildState) (r : Nat × String) :
    Option BuildState :=
  let level := level_for base step r.1
  match popGE level st.stack with
  | [] => none
  | (plvl, pid) :: rest =>
    let children := (st.nodes.getD pid [])
    match children.lookup r.2 with
    | some cid => some ⟨st.nodes, (level, cid) :: (plvl, pid) :: rest⟩
    | none =>
      let cid := st.nodes.length
      some ⟨(st.nodes.set pid (children ++ [(r.2, cid)])) ++ [[]],
            (level, cid) :: (plvl, pid) :: rest⟩

/-- The `for` loop of app2.py lines 102-118 over all records. -/
def processRecords (base : Nat) (step : Int) :
    BuildState → List (Nat × String) → Option BuildState
  | st, [] => some st
  | st, r :: rs =>
    match insertRecord base step st r with
    | none => none
    | some st1 => processRecords base step st1 rs

/-- The initial state (app2.py lines 86-100): one empty root container (the
value of `tree[const_name]`) and the stack `[(-1, root)]`. -/
def initState : BuildState := ⟨[[]], [(-1, 0)]⟩

/-- app2.py lines 81-120, `build_tree_from_keys(const_name, records)`.  The
result is the final arena-and-stack state; node 0 of the arena is the
container stored under `const_name` in the returned dict.  `none` models the
`ValueError` Python's `min` raises on an empty record list (the
`const_name` argument only names the root and does not influence
construction). -/
def build_tree_from_keys (const_name : String)
    (records : List (Nat × String)) : Option BuildState :=
  match records with
  | [] => none
  | _ :: _ =>
    processRecords (base_indent records) (indent_step records)
      initState records

/-- Read the nested dict tree rooted at arena index `id` back out of the
arena, with enough fuel (`st.nodes.length` suffices: a child's index always
exceeds its parent's). -/
def toNTree (nodes : List (List (String × Nat))) : Nat → Nat → NTree
  | 0, _ => .node []
  | fuel + 1, id =>
    .node ((nodes.getD id []).map (fun p => (p.1, toNTree nodes fuel p.2)))

/-- The recovered subtree `tree[const_name]` as a nested tree. -/
def rootSubtree (st : BuildState) : NTree :=
  toNTree st.nodes st.nodes.length 0

/-- Invariant of the builder's stack: levels strictly decrease from the top
(the head) down to the bottom, and the bottom is the synthetic root entry at
level -1 pointing at arena node 0 — read bottom-up, the stack is strictly
increasing in level from the root entry to the most recently pushed entry. -/
def StackInv (s : List (Int × Nat)) : Prop :=
  s.Pairwise (fun a b => b.1 < a.1) ∧ ∃ t, s = t ++ [((-1 : Int), 0)]

/-! # Theorems for the claims -/

/-- C2. The claim's expected body lines for the input value corresponding to
the JSON text mapping "a" to a map with scalar entries "b" and "c" are wrong
on the code: `build_tree` is not equal to the five claimed lines (the claimed
final line begins with four blanks, whereas the code's leaf-marker line always
uses the bar filler repeated `indent` times, here once). -/
theorem c2_counterexample :
    build_tree (.obj [("a", .obj [("b", .scalar "1"), ("c", .scalar "2")])]) 0 ≠
      ["a", "├── b", "│   └── value", "└── c", "    └── value"] := by
  decide

/-- C2 (amended). For the input value mapping "a" to a map with scalar entries
"b" and "c", `build_tree` starting at depth 0 produces exactly the body lines
"a", "├── b", "│   └── value", "└── c", "│   └── value" in that order — the
final leaf-marker line uses the bar filler, like the one before it. -/
theorem c2_amended_render :
    build_tree (.obj [("a", .obj [("b", .scalar "1"), ("c", .scalar "2")])]) 0 =
      ["a", "├── b", "│   └── value", "└── c", "│   └── value"] := by
  decide

/-- C1.  Pipeline evaluation on the claim's concrete input (body lines
"  foo: 1", "  bar: \x7b", "    baz: 2", "  \x7d" with declaration name
"root").  Key recovery and the recovered hierarchy are exactly as the claim
says (root with children foo and bar, bar with child baz), but the rendered
lines are NOT the four claimed lines: the code indents the root's children by
four blanks ("    ├── foo", "    └── bar", "        └── baz"), because
`tree_to_md_lines` extends the child prefix by four blanks even at the root
call where `is_last` is true — contradicting its own source comment that
children of the root "should start with no prefix". -/
theorem c1_pipeline_actual_output :
    find_property_keys ["  foo: 1", "  bar: \x7b", "    baz: 2", "  \x7d"] =
        some [(2, "foo"), (2, "bar"), (4, "baz")] ∧
    (build_tree_from_keys "root" [(2, "foo"), (2, "bar"), (4, "baz")]).map
        rootSubtree = some (.node [("foo", .node []),
          ("bar", .node [("baz", .node [])])]) ∧
    (build_tree_from_keys "root" [(2, "foo"), (2, "bar"), (4, "baz")]).map
        (fun st => tree_to_md_lines "root" (rootSubtree st) "" true) =
      some ["root", "    ├── foo", "    └── bar", "        └── baz"] ∧
    (build_tree_from_keys "root" [(2, "foo"), (2, "bar"), (4, "baz")]).map
        (fun st => tree_to_md_lines "root" (rootSubtree st) "" true) ≠
      some ["root", "├── foo", "└── bar", "    └── baz"] := by
  refine ⟨by decide, rfl, by decide, by decide⟩

mutual

/-- `tree_to_md_lines` agrees with the specification-side renderer on every
node (shared step of the two renderer lemmas below). -/
theorem render_eq_spec (name : String) (t : NTree) (pre : String)
    (isLast : Bool) :
    tree_to_md_lines name t pre isLast = namedRenderSpec name t pre isLast := by
  match t with
  | .node cs =>
    simp only [tree_to_md_lines, namedRenderSpec]
    exact congrArg _ (render_eq_spec_children cs _ 0 cs.length (by omega))

/-- The children loop of `tree_to_md_lines` agrees with the positional
last-sibling formulation of the specification. -/
theorem render_eq_spec_children (cs : List (String × NTree)) (childPre : String)
    (idx total : Nat) (h : total = idx + cs.length) :
    treeChildrenLines cs childPre =
      namedRenderSpecChildren cs childPre idx total := by
  match cs with
  | [] => rfl
  | (n, t) :: rest =>
    simp only [treeChildrenLines, namedRenderSpecChildren]
    have hb : rest.isEmpty = decide (idx = total - 1) := by
      cases rest with
      | nil =>
        simp only [List.length_cons, List.length_nil] at h
        have hi : idx = total - 1 := by omega
        simp [hi]
      | cons a as =>
        simp only [List.length_cons] at h
        have hi : ¬ (idx = total - 1) := by omega
        simp [hi]
    rw [hb, render_eq_spec n t childPre _,
      render_eq_spec_children rest childPre (idx + 1) total
        (by simp only [List.length_cons] at h; omega)]

end

/-- C3. For every NamedTree node, `tree_to_md_lines` called with any prefix
and last-flag emits the bare name when the prefix is empty and otherwise
prefix ++ connector ++ name (connector "└── " if last else "├── "), computes
the children's prefix as prefix ++ ("    " if last else "│   "), and recurses
over the children in stored order marking only the final child as last — it
coincides everywhere with `namedRenderSpec`, the renderer transcribed from the
specification contract; and a node with no children emits only its own line,
with no leaf marker appended. -/
theorem c3_named_renderer_contract :
    (∀ (name : String) (t : NTree) (pre : String) (isLast : Bool),
        tree_to_md_lines name t pre isLast = namedRenderSpec name t pre isLast) ∧
    (∀ (name pre : String) (isLast : Bool),
        tree_to_md_lines name (.node []) pre isLast =
          [if pre = "" then name
           else pre ++ (if isLast then "└── " else "├── ") ++ name]) :=
  ⟨render_eq_spec, fun _ _ _ => rfl⟩

/-- Helper for C6: on a dict whose values are all scalars, the dict loop of
`build_tree` emits exactly one key line followed by one leaf-marker line per
entry, the marker being the bar filler repeated `d` times then "└── value". -/
theorem buildObjLines_all_scalar (entries : List (String × JValue)) (d : Nat)
    (h : ∀ p ∈ entries, ∃ s, p.2 = JValue.scalar s) :
    (buildObjLines entries d).length = 2 * entries.length ∧
    ∀ j < entries.length, (buildObjLines entries d)[2 * j + 1]? =
      some (repStr "│   " d ++ "└── value") := by
  induction entries with
  | nil => simp [buildObjLines]
  | cons p rest ih =>
    obtain ⟨k, v⟩ := p
    obtain ⟨s, hs⟩ := h (k, v) (by simp)
    simp only at hs
    subst hs
    obtain ⟨ihLen, ihGet⟩ := ih (fun q hq => h q (by simp [hq]))
    constructor
    · simp [buildObjLines, ihLen]; omega
    · intro j hj
      cases j with
      | zero => simp [buildObjLines]
      | succ j0 =>
        have h2 : 2 * (j0 + 1) + 1 = (2 * j0 + 1) + 1 + 1 := by omega
        simp only [buildObjLines, h2, List.getElem?_cons_succ,
          List.singleton_append]
        exact ihGet j0 (by simpa using Nat.lt_of_succ_lt_succ hj)

/-- C6. For every dict all of whose values are non-container scalars, rendered
by `build_tree` at depth `d`, the output interleaves one key line and one
leaf-marker line per entry: it has `2 * n` lines, and the line following each
key line (the odd positions) equals "│   " repeated `d` times followed by
"└── value" — exactly one leaf-marker line per entry. -/
theorem c6_scalar_map_leaf_markers (entries : List (String × JValue)) (d : Nat)
    (h : ∀ p ∈ entries, ∃ s, p.2 = JValue.scalar s) :
    (build_tree (.obj entries) d).length = 2 * entries.length ∧
    ∀ j < entries.length, (build_tree (.obj entries) d)[2 * j + 1]? =
      some (repStr "│   " d ++ "└── value") := by
  simpa [build_tree] using buildObjLines_all_scalar entries d h

/-- C6 witness: the two-entry scalar dict at depth 1. -/
theorem c6_scalar_map_leaf_markers_witness :
    (build_tree (.obj [("x", .scalar "1"), ("y", .scalar "2")]) 1).length =
        2 * 2 ∧
    ∀ j < 2, (build_tree
        (.obj [("x", .scalar "1"), ("y", .scalar "2")]) 1)[2 * j + 1]? =
      some (repStr "│   " 1 ++ "└── value") := by
  have := c6_scalar_map_leaf_markers [("x", .scalar "1"), ("y", .scalar "2")] 1
    (by intro p hp
        simp only [List.mem_cons, List.not_mem_nil, or_false] at hp
        rcases hp with rfl | rfl
        · exact ⟨"1", rfl⟩
        · exact ⟨"2", rfl⟩)
  simpa using this

mutual

/-- Line count of `build_tree` on a container: one line per key or index plus
one line per scalar leaf (shared step of the three counting lemmas). -/
theorem build_tree_length (v : JValue) (d : Nat) :
    v.isContainer → (build_tree v d).length = keyCount v + markerCount v := by
  match v with
  | .obj entries =>
    intro _
    simpa [build_tree, keyCount, markerCount] using
      buildObjLines_length entries d
  | .arr items =>
    intro _
    simpa [build_tree, keyCount, markerCount] using
      buildArrLines_length items d 0
  | .scalar s => intro h; exact absurd h (by simp [JValue.isContainer])

/-- Line count of the dict loop of `build_tree`. -/
theorem buildObjLines_length (entries : List (String × JValue)) (d : Nat) :
    (buildObjLines entries d).length =
      keyCountObj entries + markerCountObj entries := by
  match entries with
  | [] => rfl
  | (k, v) :: rest =>
    have ihRest := buildObjLines_length rest d
    match v with
    | .obj es =>
      have ihv := build_tree_length (.obj es) (d + 1) (by simp [JValue.isContainer])
      simp only [buildObjLines, List.length_cons, List.length_append, ihv,
        ihRest, keyCountObj, markerCountObj, keyCount, markerCount] at ihv ⊢
      omega
    | .arr is =>
      have ihv := build_tree_length (.arr is) (d + 1) (by simp [JValue.isContainer])
      simp only [buildObjLines, List.length_cons, List.length_append, ihv,
        ihRest, keyCountObj, markerCountObj, keyCount, markerCount] at ihv ⊢
      omega
    | .scalar s =>
      simp only [buildObjLines, List.length_cons, List.length_append, ihRest,
        keyCountObj, markerCountObj, keyCount, markerCount, List.length_singleton, List.length_nil]
      omega

/-- Line count of the list loop of `build_tree` (any starting index). -/
theorem buildArrLines_length (items : List JValue) (d idx : Nat) :
    (buildArrLines items d idx).length =
      keyCountArr items + markerCountArr items := by
  match items with
  | [] => rfl
  | item :: rest =>
    have ihRest := buildArrLines_length rest d (idx + 1)
    match item with
    | .obj es =>
      have ihv := build_tree_length (.obj es) (d + 1) (by simp [JValue.isContainer])
      simp only [buildArrLines, List.length_cons, List.length_append, ihv,
        ihRest, keyCountArr, markerCountArr, keyCount, markerCount] at ihv ⊢
      omega
    | .arr is =>
      have ihv := build_tree_length (.arr is) (d + 1) (by simp [JValue.isContainer])
      simp only [buildArrLines, List.length_cons, List.length_append, ihv,
        ihRest, keyCountArr, markerCountArr, keyCount, markerCount] at ihv ⊢
      omega
    | .scalar s =>
      simp only [buildArrLines, List.length_cons, List.length_append, ihRest,
        keyCountArr, markerCountArr, keyCount, markerCount, List.length_singleton, List.length_nil]
      omega

end

/-- C7. For every nested dict/list value, at any depth, the number of
non-leaf-marker lines produced by `build_tree` (total lines minus the
leaf-marker lines, of which there is one per scalar entry) equals the total
count of keys and indices across all levels of the nesting. -/
theorem c7_nonmarker_line_count (v : JValue) (d : Nat) (h : v.isContainer) :
    (build_tree v d).length = keyCount v + markerCount v :=
  build_tree_length v d h

/-- C7 witness: a dict holding a list holding a scalar and a dict. -/
theorem c7_nonmarker_line_count_witness :
    JValue.isContainer (.obj [("a", .arr [.scalar "1", .obj [("b", .scalar "2")]])]) ∧
    (build_tree (.obj [("a", .arr [.scalar "1", .obj [("b", .scalar "2")]])]) 0).length =
      keyCount (.obj [("a", .arr [.scalar "1", .obj [("b", .scalar "2")]])]) +
        markerCount (.obj [("a", .arr [.scalar "1", .obj [("b", .scalar "2")]])]) :=
  ⟨trivial, c7_nonmarker_line_count _ 0 trivial⟩

/-- The collection phase stops exactly at the first terminator line:
`collectBody` is `takeWhile` of the non-terminator test. -/
theorem collectBody_eq_takeWhile (ls : List String) :
    collectBody ls = ls.takeWhile (fun l => !isTerminatorLine l) := by
  induction ls with
  | nil => rfl
  | cons l rest ih =>
    simp only [collectBody, List.takeWhile_cons]
    cases hterm : isTerminatorLine l <;> simp [hterm, ih]

/-- The search phase fails exactly when no line matches the declaration
pattern. -/
theorem scanForStart_eq_none_iff (name : String) (lines : List String) :
    scanForStart name lines = none ↔
      ∀ l ∈ lines, constDeclMatch name l = false := by
  induction lines with
  | nil => simp [scanForStart]
  | cons l rest ih =>
    simp only [scanForStart]
    cases hm : constDeclMatch name l
    · simpa [hm] using ih
    · simp [hm]

/-- On success the search phase returns the body collected from the lines
after the first matching line. -/
theorem scanForStart_eq_some_iff (name : String) (lines : List String)
    (b : List String) :
    scanForStart name lines = some b ↔
      (∃ l ∈ lines, constDeclMatch name l = true) ∧
        b = collectBody
          ((lines.dropWhile (fun l => !constDeclMatch name l)).tail) := by
  induction lines with
  | nil => simp [scanForStart]
  | cons l rest ih =>
    simp only [scanForStart]
    cases hm : constDeclMatch name l
    · simpa [hm] using ih
    · rw [if_pos rfl]
      have hdrop : (l :: rest).dropWhile (fun s => !constDeclMatch name s) =
          l :: rest := by
        simp [List.dropWhile_cons, hm]
      rw [hdrop]
      simp only [List.tail_cons, Option.some.injEq]
      constructor
      · intro h; exact ⟨⟨l, by simp, hm⟩, h.symm⟩
      · rintro ⟨-, hb⟩; exact hb.symm

/-- C8. `extract_const_block` yields the declaration-not-found error exactly
when no input line matches the declaration-start pattern, and yields the
empty-body error exactly when some line matches the start pattern but zero
lines are collected afterwards before a terminating line (or the end of the
input). -/
theorem c8_extract_error_conditions (lines : List String) (name : String) :
    (extract_const_block lines name = .error .declarationNotFound ↔
        ∀ l ∈ lines, constDeclMatch name l = false) ∧
    (extract_const_block lines name = .error .emptyBody ↔
        (∃ l ∈ lines, constDeclMatch name l = true) ∧
          ((lines.dropWhile (fun l => !constDeclMatch name l)).tail.takeWhile
              (fun l => !isTerminatorLine l)) = []) := by
  unfold extract_const_block
  cases hscan : scanForStart name lines with
  | none =>
    have hall := (scanForStart_eq_none_iff name lines).mp hscan
    constructor
    · exact ⟨fun _ => hall, fun _ => rfl⟩
    · constructor
      · intro h; exact absurd h (by simp)
      · rintro ⟨⟨l, hl, hm⟩, -⟩
        exact absurd (hall l hl) (by simp [hm])
  | some b =>
    obtain ⟨hex, hb⟩ := (scanForStart_eq_some_iff name lines b).mp hscan
    rw [collectBody_eq_takeWhile] at hb
    cases b with
    | nil =>
      constructor
      · constructor
        · intro h; exact absurd h (by simp)
        · rintro hall
          obtain ⟨l, hl, hm⟩ := hex
          exact absurd (hall l hl) (by simp [hm])
      · simp [hex, hb.symm]
    | cons x xs =>
      constructor
      · constructor
        · intro h; exact absurd h (by simp)
        · rintro hall
          obtain ⟨l, hl, hm⟩ := hex
          exact absurd (hall l hl) (by simp [hm])
      · constructor
        · intro h; exact absurd h (by simp)
        · rintro ⟨-, hempty⟩
          rw [← hb] at hempty
          exact absurd hempty (by simp)

/-- C10. Counterexample to the claim as stated: in the one-line input
"const x =" the declaration-start pattern matches the (only) line and no later
line matches either termination pattern — there are no later lines at all —
yet `extract_const_block` raises the empty-body error instead of returning the
(empty) run of lines after the start without raising. -/
theorem c10_counterexample :
    constDeclMatch "x" "const x =" = true ∧
    extract_const_block ["const x ="] "x" = .error .emptyBody :=
  ⟨rfl, rfl⟩

/-- Skipping a run of non-matching lines leaves the search phase unchanged. -/
theorem scanForStart_append (name : String) :
    ∀ (pre rest : List String), (∀ p ∈ pre, constDeclMatch name p = false) →
      scanForStart name (pre ++ rest) = scanForStart name rest := by
  intro pre
  induction pre with
  | nil => intro rest _; rfl
  | cons p ps ih =>
    intro rest h
    simp only [List.cons_append, scanForStart, h p (by simp)]
    exact ih rest (fun q hq => h q (by simp [hq]))

/-- When no line of the body is a terminator, the collection phase keeps every
line. -/
theorem collectBody_of_no_terminator :
    ∀ (post : List String), (∀ p ∈ post, isTerminatorLine p = false) →
      collectBody post = post := by
  intro post
  induction post with
  | nil => intro _; rfl
  | cons q qs ih =>
    intro h
    simp only [collectBody, h q (by simp)]
    simp [ih (fun r hr => h r (by simp [hr]))]

/-- C10 (amended). If the declaration-start pattern matches some line, no
later line matches either termination pattern, and at least one line follows
the first matching line, then `extract_const_block` returns every line after
the start line up to the end of the input without raising — a terminating
line is not required for success (but at least one collected line is: with
zero lines after the start the function raises the empty-body error, see the
counterexample). -/
theorem c10_amended_no_terminator (name l : String) (pre post : List String)
    (hpre : ∀ p ∈ pre, constDeclMatch name p = false)
    (hl : constDeclMatch name l = true)
    (hpost : ∀ p ∈ post, isTerminatorLine p = false)
    (hne : post ≠ []) :
    extract_const_block (pre ++ l :: post) name = .ok post := by
  have hscan : scanForStart name (pre ++ l :: post) = some (collectBody post) := by
    rw [scanForStart_append name pre (l :: post) hpre]
    simp [scanForStart, hl]
  unfold extract_const_block
  rw [hscan, collectBody_of_no_terminator post hpost]
  cases post with
  | nil => exact absurd rfl hne
  | cons a as => rfl

/-- C10 witness: declaration line followed by one body line and no
terminator. -/
theorem c10_amended_no_terminator_witness :
    (∀ p ∈ ([] : List String), constDeclMatch "x" p = false) ∧
    constDeclMatch "x" "const x =" = true ∧
    (∀ p ∈ ["  a: 1"], isTerminatorLine p = false) ∧
    (["  a: 1"] : List String) ≠ [] ∧
    extract_const_block ([] ++ "const x =" :: ["  a: 1"]) "x" = .ok ["  a: 1"] :=
  ⟨by simp, by decide, by decide, by decide,
    c10_amended_no_terminator "x" "const x =" [] ["  a: 1"]
      (by simp) (by decide) (by decide) (by decide)⟩

/-- The clamp of `level_for` bounds every computed level below by 1. -/
theorem level_for_ge_one (base : Nat) (step : Int) (indent : Nat) :
    1 ≤ level_for base step indent := by
  simp only [level_for]
  split <;> omega

/-- The initial stack `[(-1, root)]` satisfies the invariant. -/
theorem initState_inv : StackInv initState.stack :=
  ⟨by simp [initState], ⟨[], rfl⟩⟩

/-- On a stack with strictly decreasing levels, the pop loop removes exactly
the entries whose level is at least `L`. -/
theorem popGE_eq_filter (L : Int) :
    ∀ (s : List (Int × Nat)), s.Pairwise (fun a b => b.1 < a.1) →
      popGE L s = s.filter (fun e => decide (e.1 < L)) := by
  intro s
  induction s with
  | nil => intro _; rfl
  | cons e rest ih =>
    intro hp
    obtain ⟨l, n⟩ := e
    rw [List.pairwise_cons] at hp
    simp only [popGE, List.filter_cons]
    by_cases hL : L ≤ l
    · rw [if_pos hL, if_neg (by simp; omega)]
      exact ih hp.2
    · rw [if_neg hL, if_pos (by simp; omega)]
      rw [List.filter_eq_self.mpr (fun a ha => by
        have h1 := hp.1 a ha
        simp only [decide_eq_true_eq]
        omega)]

/-- Pushing an entry whose level exceeds everything on a well-formed popped
stack preserves the invariant. -/
theorem stackInv_push (L : Int) (cid : Nat) (f : List (Int × Nat))
    (hpwf : List.Pairwise (fun a b : Int × Nat => b.1 < a.1)
      (f ++ [((-1 : Int), 0)]))
    (hmem : ∀ e ∈ f ++ [((-1 : Int), 0)], (e : Int × Nat).1 < L) :
    StackInv ((L, cid) :: (f ++ [((-1 : Int), 0)])) := by
  constructor
  · rw [List.pairwise_cons]
    exact ⟨hmem, hpwf⟩
  · exact ⟨(L, cid) :: f, by simp⟩

/-- On an invariant-satisfying state, inserting a record always succeeds (the
parent lookup at the stack top never fails), preserves the invariant, and
leaves the new record's entry on top of the stack at its computed level. -/
theorem insertRecord_some (base : Nat) (step : Int) (st : BuildState)
    (r : Nat × String) (h : StackInv st.stack) :
    ∃ st1, insertRecord base step st r = some st1 ∧ StackInv st1.stack ∧
      ∃ cid, st1.stack.head? = some (level_for base step r.1, cid) := by
  obtain ⟨hpw, t, ht⟩ := h
  have hL1 : 1 ≤ level_for base step r.1 := level_for_ge_one base step r.1
  have hfilter : popGE (level_for base step r.1) st.stack =
      t.filter (fun e => decide (e.1 < level_for base step r.1)) ++
        [((-1 : Int), 0)] := by
    have hm1 : ((-1 : Int) < level_for base step r.1) := by omega
    rw [popGE_eq_filter _ st.stack hpw, ht, List.filter_append]
    simp [hm1]
  have hpwf : List.Pairwise (fun a b : Int × Nat => b.1 < a.1)
      (t.filter (fun e => decide (e.1 < level_for base step r.1)) ++
        [((-1 : Int), 0)]) := by
    rw [← hfilter, popGE_eq_filter _ st.stack hpw]
    exact hpw.sublist (List.filter_sublist _)
  have hmem : ∀ e ∈ t.filter (fun e => decide (e.1 < level_for base step r.1)) ++
      [((-1 : Int), 0)], (e : Int × Nat).1 < level_for base step r.1 := by
    intro e he
    rcases List.mem_append.mp he with h1 | h1
    · simpa using (List.mem_filter.mp h1).2
    · simp only [List.mem_singleton] at h1
      rw [h1]
      omega
  rcases htf : t.filter (fun e => decide (e.1 < level_for base step r.1)) with
    _ | ⟨⟨plvl, pid⟩, ps⟩
  · rw [htf] at hfilter hpwf hmem
    simp only [List.nil_append] at hfilter hpwf hmem
    cases hlook : (st.nodes.getD 0 []).lookup r.2 with
    | some cid =>
      simp only [insertRecord, hfilter, hlook]
      refine ⟨_, rfl, ?_, cid, rfl⟩
      exact stackInv_push (level_for base step r.1) cid [] hpwf hmem
    | none =>
      simp only [insertRecord, hfilter, hlook]
      refine ⟨_, rfl, ?_, st.nodes.length, rfl⟩
      exact stackInv_push (level_for base step r.1) st.nodes.length [] hpwf hmem
  · rw [htf] at hfilter hpwf hmem
    cases hlook : (st.nodes.getD pid []).lookup r.2 with
    | some cid =>
      simp only [insertRecord, hfilter, List.cons_append, hlook]
      refine ⟨_, rfl, ?_, cid, rfl⟩
      exact stackInv_push (level_for base step r.1) cid ((plvl, pid) :: ps)
        hpwf hmem
    | none =>
      simp only [insertRecord, hfilter, List.cons_append, hlook]
      refine ⟨_, rfl, ?_, st.nodes.length, rfl⟩
      exact stackInv_push (level_for base step r.1) st.nodes.length
        ((plvl, pid) :: ps) hpwf hmem

/-- Processing any run of records from an invariant-satisfying state succeeds
and preserves the invariant. -/
theorem processRecords_inv (base : Nat) (step : Int) :
    ∀ (rs : List (Nat × String)) (st : BuildState), StackInv st.stack →
      ∃ st1, processRecords base step st rs = some st1 ∧ StackInv st1.stack := by
  intro rs
  induction rs with
  | nil => intro st h; exact ⟨st, rfl, h⟩
  | cons r rest ih =>
    intro st h
    obtain ⟨st1, he, hinv, -⟩ := insertRecord_some base step st r h
    obtain ⟨st2, he2, hinv2⟩ := ih st1 hinv
    exact ⟨st2, by simp only [processRecords, he, he2], hinv2⟩

/-- The record loop splits over list concatenation. -/
theorem processRecords_append (base : Nat) (step : Int) :
    ∀ (xs ys : List (Nat × String)) (st : BuildState),
      processRecords base step st (xs ++ ys) =
        (processRecords base step st xs).bind
          (fun st1 => processRecords base step st1 ys) := by
  intro xs
  induction xs with
  | nil => intro ys st; rfl
  | cons x xr ih =>
    intro ys st
    simp only [List.cons_append, processRecords]
    cases insertRecord base step st x with
    | none => rfl
    | some st1 => exact ih ys st1

/-- C4. Throughout `build_tree_from_keys` — i.e. after any prefix of the
records has been processed — the stack is strictly increasing in level from
the synthetic root entry at level -1 up to the entry of the most recently
inserted key (which sits on top at its computed level), and the pop phase for
any level L removes exactly the stack entries whose level is ≥ L before the
key is attached under the new stack top. -/
theorem c4_stack_strictly_increasing
    (records processed remaining : List (Nat × String)) (st : BuildState)
    (hsplit : records = processed ++ remaining)
    (hrun : processRecords (base_indent records) (indent_step records)
        initState processed = some st) :
    StackInv st.stack ∧
    (∀ L : Int, popGE L st.stack =
      st.stack.filter (fun e => decide (e.1 < L))) ∧
    (∀ (ps : List (Nat × String)) (r : Nat × String), processed = ps ++ [r] →
      ∃ cid, st.stack.head? = some
        (level_for (base_indent records) (indent_step records) r.1, cid)) := by
  obtain ⟨st1, he, hinv⟩ := processRecords_inv (base_indent records)
    (indent_step records) processed initState initState_inv
  rw [hrun] at he
  obtain rfl : st = st1 := by injection he
  refine ⟨hinv, fun L => popGE_eq_filter L st.stack hinv.1, ?_⟩
  intro ps r hpr
  rw [hpr, processRecords_append] at hrun
  cases hps : processRecords (base_indent records) (indent_step records)
      initState ps with
  | none => rw [hps] at hrun; exact absurd hrun (by simp)
  | some stp =>
    rw [hps] at hrun
    simp only [Option.some_bind] at hrun
    have hinvp : StackInv stp.stack := by
      obtain ⟨s2, he2, hi2⟩ := processRecords_inv (base_indent records)
        (indent_step records) ps initState initState_inv
      rw [hps] at he2
      obtain rfl : stp = s2 := by injection he2
      exact hi2
    obtain ⟨st1', hei, -, cid, hhead⟩ := insertRecord_some (base_indent records)
      (indent_step records) stp r hinvp
    simp only [processRecords, hei] at hrun
    obtain rfl : st1' = st := by injection hrun
    exact ⟨cid, hhead⟩

/-- C4 witness: the state after processing the first two of the three records
recovered from the concrete scenario body. -/
theorem c4_stack_strictly_increasing_witness :
    StackInv ([((1 : Int), 2), (-1, 0)]) ∧
    (∀ L : Int, popGE L [((1 : Int), 2), (-1, 0)] =
      ([((1 : Int), 2), (-1, 0)] : List (Int × Nat)).filter
        (fun e => decide (e.1 < L))) ∧
    (∀ (ps : List (Nat × String)) (r : Nat × String),
      [(2, "foo"), (2, "bar")] = ps ++ [r] →
      ∃ cid, ([((1 : Int), 2), (-1, 0)] : List (Int × Nat)).head? = some
        (level_for (base_indent [(2, "foo"), (2, "bar"), (4, "baz")])
          (indent_step [(2, "foo"), (2, "bar"), (4, "baz")]) r.1, cid)) :=
  c4_stack_strictly_increasing [(2, "foo"), (2, "bar"), (4, "baz")]
    [(2, "foo"), (2, "bar")] [(4, "baz")]
    ⟨[[("foo", 1), ("bar", 2)], [], []], [(1, 2), (-1, 0)]⟩ rfl (by decide)

/-- The running minimum of the `base_indent` fold never exceeds its
accumulator. -/
theorem foldl_min_le_init (rs : List (Nat × String)) :
    ∀ a : Nat, rs.foldl (fun m p => min m p.1) a ≤ a := by
  induction rs with
  | nil => intro a; exact le_refl a
  | cons p ps ih =>
    intro a
    simp only [List.foldl_cons]
    exact le_trans (ih (min a p.1)) (min_le_left a p.1)

/-- The running minimum of the `base_indent` fold is a lower bound of every
traversed indent. -/
theorem foldl_min_le_mem (rs : List (Nat × String)) :
    ∀ (a : Nat) (p : Nat × String), p ∈ rs →
      rs.foldl (fun m q => min m q.1) a ≤ p.1 := by
  induction rs with
  | nil => intro a p hp; cases hp
  | cons q qs ih =>
    intro a p hp
    simp only [List.foldl_cons]
    rcases List.mem_cons.mp hp with rfl | hmem
    · exact le_trans (foldl_min_le_init qs (min a p.1)) (min_le_right a p.1)
    · exact ih (min a q.1) p hmem

/-- The running minimum of the `base_indent` fold is attained: it is either
the accumulator or one of the traversed indents. -/
theorem foldl_min_attained (rs : List (Nat × String)) :
    ∀ a : Nat, rs.foldl (fun m q => min m q.1) a = a ∨
      ∃ p ∈ rs, rs.foldl (fun m q => min m q.1) a = p.1 := by
  induction rs with
  | nil => intro a; exact Or.inl rfl
  | cons q qs ih =>
    intro a
    simp only [List.foldl_cons]
    rcases ih (min a q.1) with h | ⟨p, hp, hq⟩
    · rcases Nat.le_total a q.1 with hle | hle
      · exact Or.inl (h.trans (Nat.min_eq_left hle))
      · exact Or.inr ⟨q, List.mem_cons_self q qs, h.trans (Nat.min_eq_right hle)⟩
    · exact Or.inr ⟨p, List.mem_cons_of_mem q hp, hq⟩

/-- `base_indent` is a lower bound of all the record indents. -/
theorem base_indent_le (records : List (Nat × String)) (r : Nat × String)
    (hr : r ∈ records) : base_indent records ≤ r.1 := by
  cases records with
  | nil => cases hr
  | cons r0 rs =>
    simp only [base_indent]
    rcases List.mem_cons.mp hr with rfl | hmem
    · exact foldl_min_le_init rs r.1
    · exact foldl_min_le_mem rs r0.1 r hmem

/-- `base_indent` of a non-empty record list is one of the record indents. -/
theorem base_indent_attained (records : List (Nat × String))
    (hne : records ≠ []) : ∃ r ∈ records, base_indent records = r.1 := by
  cases records with
  | nil => exact absurd rfl hne
  | cons r0 rs =>
    simp only [base_indent]
    rcases foldl_min_attained rs r0.1 with h | ⟨p, hp, hq⟩
    · exact ⟨r0, List.mem_cons_self r0 rs, h⟩
    · exact ⟨p, List.mem_cons_of_mem r0 hp, hq⟩

/-- Membership in the sorted diff set is membership in the positive-diff
list. -/
theorem mem_posDiffs (records : List (Nat × String)) (d : Int) :
    d ∈ posDiffs records ↔
      d ∈ (records.map (fun r => (r.1 : Int) - (base_indent records : Int))).filter
        (fun x => (0 : Int) < x) := by
  unfold posDiffs
  rw [(List.perm_insertionSort _ _).mem_iff, List.mem_dedup]

/-- The inferred indentation step is always strictly positive. -/
theorem indent_step_pos (records : List (Nat × String)) :
    0 < indent_step records := by
  unfold indent_step
  cases hpd : posDiffs records with
  | nil => decide
  | cons d0 tail =>
    have hd : d0 ∈ posDiffs records := by
      rw [hpd]; exact List.mem_cons_self d0 tail
    have := (mem_posDiffs records d0).mp hd
    simpa using (List.mem_filter.mp this).2

/-- When no strictly positive indent difference exists, the step falls back
to 2. -/
theorem indent_step_eq_two (records : List (Nat × String))
    (h : (records.map (fun r => (r.1 : Int) - (base_indent records : Int))).filter
        (fun x => (0 : Int) < x) = []) :
    indent_step records = 2 := by
  have hpd : posDiffs records = [] := by
    unfold posDiffs
    rw [h]
    rfl
  simp [indent_step, hpd]

/-- The inferred step is the least strictly positive indent difference, and
is itself such a difference. -/
theorem indent_step_least (records : List (Nat × String)) (d : Int)
    (hd : d ∈ (records.map (fun r => (r.1 : Int) -
        (base_indent records : Int))).filter (fun x => (0 : Int) < x)) :
    indent_step records ≤ d ∧
      indent_step records ∈ (records.map (fun r => (r.1 : Int) -
        (base_indent records : Int))).filter (fun x => (0 : Int) < x) := by
  have hmem : d ∈ posDiffs records := (mem_posDiffs records d).mpr hd
  cases hpd : posDiffs records with
  | nil => rw [hpd] at hmem; cases hmem
  | cons d0 tail =>
    have hstep : indent_step records = d0 := by simp [indent_step, hpd]
    rw [hpd] at hmem
    have hsorted : List.Sorted (fun a b : Int => a ≤ b) (posDiffs records) :=
      List.sorted_insertionSort _ _
    rw [hpd] at hsorted
    constructor
    · rcases List.mem_cons.mp hmem with rfl | htail
      · rw [hstep]
      · rw [hstep]
        exact (List.sorted_cons.mp hsorted).1 d htail
    · rw [hstep]
      exact (mem_posDiffs records d0).mp (by rw [hpd]; exact List.mem_cons_self d0 tail)

/-- C5. For every non-empty list of (indent, key) records,
`build_tree_from_keys` computes the baseline as the minimum indent over all
records, the step as the smallest strictly positive indent difference
(defaulting to 2 when none exists), and assigns each record the level
1 + floor((indent - base) / step) clamped below by 1 — written here as a
maximum with 1. -/
theorem c5_level_computation (records : List (Nat × String))
    (hne : records ≠ []) :
    (∀ r ∈ records, base_indent records ≤ r.1) ∧
    (∃ r ∈ records, base_indent records = r.1) ∧
    ((records.map (fun r => (r.1 : Int) - (base_indent records : Int))).filter
        (fun x => (0 : Int) < x) = [] → indent_step records = 2) ∧
    (∀ d ∈ (records.map (fun r => (r.1 : Int) -
        (base_indent records : Int))).filter (fun x => (0 : Int) < x),
      indent_step records ≤ d ∧
        indent_step records ∈ (records.map (fun r => (r.1 : Int) -
          (base_indent records : Int))).filter (fun x => (0 : Int) < x)) ∧
    (∀ r ∈ records,
      level_for (base_indent records) (indent_step records) r.1 =
        max 1 (1 + ((r.1 : Int) - (base_indent records : Int)).fdiv
          (indent_step records))) := by
  refine ⟨fun r hr => base_indent_le records r hr,
    base_indent_attained records hne,
    indent_step_eq_two records,
    fun d hd => indent_step_least records d hd,
    fun r _ => ?_⟩
  simp only [level_for]
  split <;> omega

/-- C5 witness: records at indents 0 and 2. -/
theorem c5_level_computation_witness :
    (∀ r ∈ [((0 : Nat), "a"), (2, "b")], base_indent [(0, "a"), (2, "b")] ≤ r.1) ∧
    (∃ r ∈ [((0 : Nat), "a"), (2, "b")], base_indent [(0, "a"), (2, "b")] = r.1) ∧
    (([((0 : Nat), "a"), (2, "b")].map (fun r => (r.1 : Int) -
        (base_indent [(0, "a"), (2, "b")] : Int))).filter
        (fun x => (0 : Int) < x) = [] → indent_step [(0, "a"), (2, "b")] = 2) ∧
    (∀ d ∈ ([((0 : Nat), "a"), (2, "b")].map (fun r => (r.1 : Int) -
        (base_indent [(0, "a"), (2, "b")] : Int))).filter (fun x => (0 : Int) < x),
      indent_step [(0, "a"), (2, "b")] ≤ d ∧
        indent_step [(0, "a"), (2, "b")] ∈
          ([((0 : Nat), "a"), (2, "b")].map (fun r => (r.1 : Int) -
            (base_indent [(0, "a"), (2, "b")] : Int))).filter
            (fun x => (0 : Int) < x)) ∧
    (∀ r ∈ [((0 : Nat), "a"), (2, "b")],
      level_for (base_indent [(0, "a"), (2, "b")])
          (indent_step [(0, "a"), (2, "b")]) r.1 =
        max 1 (1 + ((r.1 : Int) - (base_indent [(0, "a"), (2, "b")] : Int)).fdiv
          (indent_step [(0, "a"), (2, "b")]))) :=
  c5_level_computation [(0, "a"), (2, "b")] (by decide)

/-- C9. For every non-empty record list, `build_tree_from_keys` returns a
result (the pop loop never removes the synthetic root entry, the stack is
never empty, and the parent lookup at the stack top always succeeds), and on
every record the raw level 1 + (indent - base) // step is already ≥ 1 — the
explicit below-1 clamp branch is unreachable, so `level_for` returns the raw
value unchanged. -/
theorem c9_parent_lookup_always_succeeds (const_name : String)
    (records : List (Nat × String)) (hne : records ≠ []) :
    (build_tree_from_keys const_name records).isSome = true ∧
    ∀ r ∈ records,
      level_for (base_indent records) (indent_step records) r.1 =
        1 + ((r.1 : Int) - (base_indent records : Int)).fdiv
          (indent_step records) := by
  constructor
  · cases records with
    | nil => exact absurd rfl hne
    | cons r0 rs =>
      obtain ⟨st1, he, -⟩ := processRecords_inv (base_indent (r0 :: rs))
        (indent_step (r0 :: rs)) (r0 :: rs) initState initState_inv
      simp [build_tree_from_keys, he]
  · intro r hr
    have hbase := base_indent_le records r hr
    have hstep := indent_step_pos records
    have hnonneg : 0 ≤ ((r.1 : Int) - (base_indent records : Int)).fdiv
        (indent_step records) := by
      refine Int.fdiv_nonneg ?_ (le_of_lt hstep)
      omega
    simp only [level_for]
    split
    · omega
    · rfl

/-- C9 witness: the three records of the concrete scenario. -/
theorem c9_parent_lookup_always_succeeds_witness :
    (build_tree_from_keys "root" [(2, "foo"), (2, "bar"), (4, "baz")]).isSome
        = true ∧
    ∀ r ∈ [((2 : Nat), "foo"), (2, "bar"), (4, "baz")],
      level_for (base_indent [(2, "foo"), (2, "bar"), (4, "baz")])
          (indent_step [(2, "foo"), (2, "bar"), (4, "baz")]) r.1 =
        1 + ((r.1 : Int) -
            (base_indent [(2, "foo"), (2, "bar"), (4, "baz")] : Int)).fdiv
          (indent_step [(2, "foo"), (2, "bar"), (4, "baz")]) :=
  c9_parent_lookup_always_succeeds "root" [(2, "foo"), (2, "bar"), (4, "baz")]
    (by decide)
